import Mathlib

/-!
Verification development for `src/hierarchy.py` (pandas-hierarchy).

The Python module builds a rooted hierarchy from a node-definition table
(`def_df` with a key column `<name>`, a parent column `parent_<name>`, an
optional `h_ix` sort column and opaque attribute columns), computes
root-to-node paths and levels with `networkx`, and offers `expand`,
`add_to_def_df` (aggregation) and `wrap_in_def_df` transforms.

Shallow embedding conventions:
* node keys are `Nat` (the repository's demos use string digit keys; only
  equality of keys is ever used, so the key type is opaque);
* a definition row carries one opaque attribute column `attr : String`
  standing for the "arbitrary extra columns (e.g. manager)" of the source;
* `NaN` cells are `Option.none`; `fillna` materialises the default;
* fallible constructor paths return `Except String _` where the Python
  raises (`ValueError`, `KeyError`, `networkx.NetworkXNoPath`).
-/

/-- One row of the node-definition table `def_df`: the `<name>` column, the
`parent_<name>` column, and an opaque attribute column. -/
structure DefRow where
  name : Nat
  parent : Nat
  attr : String
deriving DecidableEq, Repr

/-- One row of a fact table handed to `expand`/`add_to_def_df`/`wrap_in_def_df`:
the node-reference column `<name>` plus one opaque payload column (the
`val_col`, e.g. `persnr`). -/
structure FactRow where
  node : Nat
  val : String
deriving DecidableEq, Repr

/-- The parent map induced by the definition table.  In
`nx.from_pandas_edgelist(def_df, parent, name, DiGraph)` every edge is
`(row.parent, row.name)`, so a node's in-edges all come from the unique row
naming it (`__init__` has already rejected duplicated names); `parentOf`
returns the tail of that unique in-edge. -/
def parentOf (rows : List DefRow) (v : Nat) : Option Nat :=
  (rows.find? (fun r => r.name == v)).map (fun r => r.parent)

/-- Keep the first occurrence of every element not seen yet. -/
def dedupFirstAux (seen : List Nat) : List Nat → List Nat
  | [] => []
  | x :: xs =>
    if x ∈ seen then dedupFirstAux seen xs
    else x :: dedupFirstAux (x :: seen) xs

/-- Keep the first occurrence of every element (node-set of the edge list). -/
def dedupFirst (l : List Nat) : List Nat :=
  dedupFirstAux [] l

/-- The node set of the DiGraph built by `nx.from_pandas_edgelist`, in edge
insertion order (each row inserts its parent endpoint, then its child). -/
def gNodes (rows : List DefRow) : List Nat :=
  dedupFirst (rows.flatMap (fun r => [r.parent, r.name]))

/-- Fuel bound for walking parent chains: strictly more than the number of
graph nodes, so a chain that has not reached the root within the fuel has
revisited a node and can never reach it. -/
def hfuel (rows : List DefRow) : Nat :=
  2 * rows.length + 2

/-- `upPath P root fuel v` is the root-to-`v` path of the definition graph,
modelling `nx.shortest_path(G, root, v)`.  Because every node of the graph
has at most one in-edge (names are unique), a path from the root to `v` is
forced link by link walking up from `v`; it exists iff that walk reaches the
root, and it is then the unique (hence shortest) path `[root, …, v]` that
networkx returns.  `none` models `NetworkXNoPath`. -/
def upPath (P : Nat → Option Nat) (root : Nat) : Nat → Nat → Option (List Nat)
  | 0, _ => none
  | fuel + 1, v =>
    if v = root then some [root]
    else
      match P v with
      | none => none
      | some p => (upPath P root fuel p).map (fun l => l ++ [v])

/-- `inSubtree P root c fuel n` decides whether `n` lies in the subtree of
`c` (with `c` itself included): walking the parent links from `n`, we meet
`c` before meeting the root or a dead end.  This is the specification-side
notion of subtree membership used by the roll-up claims; it is defined
directly from the parent links and independently of the stored paths. -/
def inSubtree (P : Nat → Option Nat) (root c : Nat) : Nat → Nat → Bool
  | 0, _ => false
  | fuel + 1, n =>
    if n = root then false
    else if n = c then true
    else
      match P n with
      | none => false
      | some p => inSubtree P root c fuel p

/-- The loop body of `Hierarchy.__init__._get_paths`: for every graph node
other than the root, compute the root-to-node shortest path; an unreachable
node raises (`nx.shortest_path` raises `NetworkXNoPath`).  The result is the
`paths` dict as an association list (`paths[path[-1]] = path`, the full path
including the root). -/
def getPathsAux (P : Nat → Option Nat) (root fuel : Nat) :
    List Nat → Except String (List (Nat × List Nat))
  | [] => Except.ok []
  | n :: ns =>
    if n = root then getPathsAux P root fuel ns
    else
      match upPath P root fuel n with
      | none => Except.error ("NetworkXNoPath")
      | some p =>
        match getPathsAux P root fuel ns with
        | Except.error e => Except.error e
        | Except.ok ps => Except.ok ((n, p) :: ps)

/-- Root determination of `__init__`: the explicit `root` argument if given,
else `def_df.at[0, parent_name]` (the first row's parent; `KeyError` on an
empty frame, modelled by `none`). -/
def resolvedRoot (rows : List DefRow) (root? : Option Nat) : Option Nat :=
  match root? with
  | some r => some r
  | none => (rows.head?).map (fun r => r.parent)

/-- A row of the constructed `def_df`: the original columns plus the added
`h_ix` and `h_level` columns. -/
structure HDefRow where
  name : Nat
  parent : Nat
  attr : String
  hIx : Nat
  hLevel : Nat
deriving DecidableEq, Repr

/-- The `def_df` after `__init__`: each row keeps its columns, gains `h_ix`
(the supplied index column or the row ordinal) and gains `h_level` via
`merge(levels, on=name, how='left').fillna(999)`.  The `levels` dict maps
each non-root reachable node `n` to `len(paths[n]) - 1`; since names are
unique the left merge is a lookup, and a row whose name has no entry (only
possible for a row naming the root itself) receives the 999 fill. -/
def mkDefDf (rows : List DefRow) (ixs : List Nat) (ps : List (Nat × List Nat)) :
    List HDefRow :=
  (rows.zip ixs).map (fun ri =>
    { name := ri.1.name, parent := ri.1.parent, attr := ri.1.attr, hIx := ri.2,
      hLevel :=
        match ps.lookup ri.1.name with
        | some p => p.length - 1
        | none => 999 })

/-- The in-memory `Hierarchy` object after `__init__`: the resolved root,
the augmented `def_df`, the `paths_df` mapping (an association list, one row
per non-root reachable node, value the full root-to-node path), and the
columns later appended by `add_to_def_df` (name and per-row values, kept
apart from the typed base columns). -/
structure Hierarchy where
  rootNode : Nat
  defDf : List HDefRow
  pathsDf : List (Nat × List Nat)
  aggCols : List (String × List String)
deriving DecidableEq, Repr

/-- `Hierarchy.__init__`: resolve the root (KeyError on an empty frame with
no explicit root), check name uniqueness (`ValueError`), run `_get_paths`
(which raises on an unreachable node), and build the augmented `def_df`.
`ixCol` models the optional pre-existing `h_ix` column; when absent, the
frame index (row ordinals) is used. -/
def Hierarchy.init (rows : List DefRow) (ixCol : Option (List Nat))
    (root? : Option Nat) : Except String Hierarchy :=
  match resolvedRoot rows root? with
  | none => Except.error ("KeyError")
  | some rootNode =>
    if (rows.map (fun r => r.name)).Nodup then
      match getPathsAux (parentOf rows) rootNode (hfuel rows) (gNodes rows) with
      | Except.error e => Except.error e
      | Except.ok ps =>
        Except.ok
          { rootNode := rootNode
            defDf := mkDefDf rows (ixCol.getD (List.range rows.length)) ps
            pathsDf := ps
            aggCols := [] }
    else Except.error ("column values must be unique")

/-- True iff a constructor call failed. -/
def isErr {α : Type} (e : Except String α) : Bool :=
  match e with
  | Except.ok _ => false
  | Except.error _ => true

/-! ## Expander (`Hierarchy.expand`) -/

/-- One row of `expand`'s output, holding the original fact columns with the
node-reference column rewritten to an ancestor key, the melt `h_level`
column, and the `h_ix`/attribute columns brought in by the merge with
`def_df` (the source's `reindex` keeps them only when listed in `add_cols`;
the embedding always carries them, which models the richest
`add_cols = ['h_ix', 'h_level', <attr>]` call and loses nothing the claims
mention). -/
structure ExpRow where
  val : String
  node : Nat
  hLevel : Nat
  hIx : Option Nat
  attr : Option String
deriving DecidableEq, Repr

/-- Width of `paths_df`: `pd.DataFrame.from_dict(paths, orient='index')` has
one column per path position, `0 … K-1` with `K` the longest stored path
(shorter paths padded with `None`). -/
def Hierarchy.pathsK (h : Hierarchy) : Nat :=
  (h.pathsDf.map (fun np => np.2.length)).foldr Nat.max 0

/-- The cell of the melted, filtered, re-merged frame produced by `expand`
for fact row `r` at path position `i`:
* `merge(paths_df, on=name, how='left')` looks the row's node up in
  `paths_df` (names unique, so at most one match; an unknown node leaves
  every path column `NaN`);
* `melt` emits one row per path-position column, `var_name` = `h_level`
  (the position, which is exactly the ancestor's 1-based level since stored
  paths start at the root), value the ancestor key or `NaN`;
* `query(h_name != root)` drops the root entry (position 0; `NaN` compares
  unequal to the root and survives the query);
* `dropna` then drops the `NaN` value rows;
* the merge with `def_df` on the rewritten key brings that ancestor's
  `h_ix` and attribute columns (first match; names are unique). -/
def Hierarchy.meltCell (h : Hierarchy) (i : Nat) (r : FactRow) : Option ExpRow :=
  match (h.pathsDf.lookup r.node).bind (fun p => p.get? i) with
  | none => none
  | some v =>
    if v = h.rootNode then none
    else
      some { val := r.val, node := v, hLevel := i,
             hIx := ((h.defDf.find? (fun d => d.name == v)).map (fun d => d.hIx)),
             attr := ((h.defDf.find? (fun d => d.name == v)).map (fun d => d.attr)) }

/-- The rows surviving melt+query+dropna, in pandas `melt` order (column
major: all rows of position 0, then position 1, …). -/
def Hierarchy.meltKept (h : Hierarchy) (df : List FactRow) : List ExpRow :=
  (List.range h.pathsK).flatMap (fun i => df.filterMap (h.meltCell i))

/-- Three-component lexicographic comparison used to model
`sort_values(by=[h_ix, h_level])`. -/
def lex3 (a b : Nat × Nat × Nat) : Bool :=
  decide (a.1 < b.1) ||
    (decide (a.1 = b.1) &&
      (decide (a.2.1 < b.2.1) ||
        (decide (a.2.1 = b.2.1) && decide (a.2.2 ≤ b.2.2))))

/-- Sort key of an expanded row: `h_ix` (a missing value sorts last, as
pandas puts `NaN` last) then the melt `h_level`. -/
def expKey (e : ExpRow) : Nat × Nat × Nat :=
  (match e.hIx with | some _ => 0 | none => 1, e.hIx.getD 0, e.hLevel)

/-- Row order of `expand`'s output. -/
def eLE (a b : ExpRow) : Prop :=
  lex3 (expKey a) (expKey b) = true

instance : DecidableRel eLE := fun a b => by
  unfold eLE; infer_instance

/-- `Hierarchy.expand`: merge with `paths_df`, melt, drop the root and the
padding, rewrite the node column, merge `def_df` back in and sort by
`(h_ix, h_level)`.  (`sort_values` uses an unstable quicksort; the claims
only use that the result is a sorted permutation, which any correct sort
gives, so a stable insertion sort stands in for it.) -/
def Hierarchy.expand (h : Hierarchy) (df : List FactRow) : List ExpRow :=
  List.insertionSort eLE (h.meltKept df)

/-! ## Aggregator (`Hierarchy.add_to_def_df`) -/

/-- Group keys of `groupby(name)`: pandas sorts the distinct keys. -/
def groupKeys (rows : List ExpRow) : List Nat :=
  List.insertionSort (fun a b : Nat => a ≤ b) (dedupFirst (rows.map (fun e => e.node)))

/-- `groupby(name).agg(fn)` over the expanded frame: for every distinct node
key, the reducer applied to that group's `val_col` entries (in frame
order).  The reducer is the caller-supplied aggregation function
(`'count'`, `'sum'`, …). -/
def groupbyAgg (rows : List ExpRow) (red : List String → String) :
    List (Nat × String) :=
  (groupKeys rows).map
    (fun k => (k, red ((rows.filter (fun e => e.node == k)).map (fun e => e.val))))

/-- The group size of key `k` under `groupby(name)` — what `.agg('count')`
yields for a column with no nulls. -/
def groupCount (rows : List ExpRow) (k : Nat) : Nat :=
  (rows.filter (fun e => e.node == k)).length

/-- The `tdf` computed inside `add_to_def_df`: take `df[[name, val_col]]`
(exactly a `FactRow`), expand it, group by the node key and aggregate the
value column. -/
def Hierarchy.aggTable (h : Hierarchy) (df : List FactRow)
    (red : List String → String) : List (Nat × String) :=
  groupbyAgg (h.expand df) red

/-- `add_to_def_df`: left-merge `tdf` onto `def_df` as a new column named
`aggCol` and `fillna('')`.  The embedding records the appended column as a
(name, per-row values) pair next to the typed base columns; when the same
name is merged twice pandas disambiguates with `_x`/`_y` suffixes, which
renames but never rewrites the value lists. -/
def Hierarchy.addToDefDf (h : Hierarchy) (df : List FactRow)
    (red : List String → String) (aggCol : String) : Hierarchy :=
  { h with
    aggCols := h.aggCols ++
      [(aggCol,
        h.defDf.map (fun d => ((h.aggTable df red).lookup d.name).getD ("")))] }

/-! ## Wrapper (`Hierarchy.wrap_in_def_df`) -/

/-- A row of the wrapped reporting table (the union of the `def_df` columns
and the fact columns; cells a row does not have are `NaN`, filled to the
empty string — modelled by `none`). -/
structure WrapRow where
  name : Nat
  parent : Option Nat
  attr : Option String
  hIx : Option Nat
  hLevel : Nat
  val : Option String
deriving DecidableEq, Repr

/-- Sort key of a wrapped row, `(h_ix, h_level)`. -/
def wKey (w : WrapRow) : Nat × Nat × Nat :=
  (match w.hIx with | some _ => 0 | none => 1, w.hIx.getD 0, w.hLevel)

/-- Row order of `wrap_in_def_df`'s output. -/
def wLE (a b : WrapRow) : Prop :=
  lex3 (wKey a) (wKey b) = true

instance : DecidableRel wLE := fun a b => by
  unfold wLE; infer_instance

/-- The definition rows as they enter the concat (at their true `h_level`).
The `rename_spec` of the source is passed positionally to
`DataFrame.rename`, which renames index labels, not columns, and the concat
ignores the index — so it does not affect the embedded columns. -/
def Hierarchy.wrapDefPart (h : Hierarchy) : List WrapRow :=
  h.defDf.map (fun d =>
    { name := d.name, parent := some d.parent, attr := some d.attr,
      hIx := some d.hIx, hLevel := d.hLevel, val := none })

/-- The fact rows as they enter the concat: `assign(h_level=999)`, left
merge with `def_df.drop(columns=h_level)` on the node key (first match;
names unique), `fillna('')`. -/
def Hierarchy.wrapFactPart (h : Hierarchy) (df : List FactRow) : List WrapRow :=
  df.map (fun r =>
    let m := h.defDf.find? (fun d => d.name == r.node)
    { name := r.node, parent := (m.map (fun d => d.parent)),
      attr := (m.map (fun d => d.attr)), hIx := (m.map (fun d => d.hIx)),
      hLevel := 999, val := some r.val })

/-- `wrap_in_def_df`: concatenate the definition rows with the widened fact
rows and `sort_values(by=[h_ix, h_level])`.  A fact row whose node is
unknown gets `NaN` def-columns, and the `fillna('')` *before* the sort turns
its `h_ix` into the empty string; sorting a column that then holds both
integers and strings raises `TypeError` in pandas, modelled by the error
branch (it triggers exactly when missing and present `h_ix` cells coexist). -/
def Hierarchy.wrapInDefDf (h : Hierarchy) (df : List FactRow) :
    Except String (List WrapRow) :=
  let rows := h.wrapDefPart ++ h.wrapFactPart df
  if (rows.any (fun w => w.hIx.isNone)) && (rows.any (fun w => w.hIx.isSome)) then
    Except.error ("TypeError: unorderable types str and int")
  else
    Except.ok (List.insertionSort wLE rows)

/-! ## Path lemmas -/

theorem upPath_root_head {P : Nat → Option Nat} {root : Nat} :
    ∀ {fuel v l}, upPath P root fuel v = some l →
      ∃ t, l = root :: t ∧ root ∉ t := by
  intro fuel
  induction fuel with
  | zero => intro v l h; simp [upPath] at h
  | succ f ih =>
    intro v l h
    by_cases hv : v = root
    · subst hv
      simp [upPath] at h
      exact ⟨[], h.symm, by simp⟩
    · cases hP : P v with
      | none => simp [upPath, hv, hP] at h
      | some p =>
        simp [upPath, hv, hP] at h
        rcases h with ⟨l', hl', rfl⟩
        rcases ih hl' with ⟨t, rfl, hroot⟩
        refine ⟨t ++ [v], by simp, ?_⟩
        simp only [List.mem_append, List.mem_singleton]
        rintro (hmem | rfl)
        · exact hroot hmem
        · exact hv rfl

theorem upPath_getLast {P : Nat → Option Nat} {root : Nat} :
    ∀ {fuel v l}, upPath P root fuel v = some l → l.getLast? = some v := by
  intro fuel
  induction fuel with
  | zero => intro v l h; simp [upPath] at h
  | succ f _ =>
    intro v l h
    by_cases hv : v = root
    · subst hv; simp [upPath] at h; simp [← h]
    · cases hP : P v with
      | none => simp [upPath, hv, hP] at h
      | some p =>
        simp [upPath, hv, hP] at h
        rcases h with ⟨l', _, rfl⟩
        exact List.getLast?_concat l'

theorem upPath_self_mem {P : Nat → Option Nat} {root : Nat} {fuel v l}
    (h : upPath P root fuel v = some l) : v ∈ l :=
  List.mem_of_getLast?_eq_some (upPath_getLast h)

theorem upPath_mono {P : Nat → Option Nat} {root : Nat} :
    ∀ {fuel g v l}, upPath P root fuel v = some l → fuel ≤ g →
      upPath P root g v = some l := by
  intro fuel
  induction fuel with
  | zero => intro g v l h; simp [upPath] at h
  | succ f ih =>
    intro g v l h hle
    rcases g with _ | g'
    · omega
    by_cases hv : v = root
    · subst hv; simp [upPath] at h ⊢; exact h
    · cases hP : P v with
      | none => simp [upPath, hv, hP] at h
      | some p =>
        simp [upPath, hv, hP] at h ⊢
        rcases h with ⟨l', hl', rfl⟩
        exact ⟨l', ih hl' (by omega), rfl⟩

theorem upPath_mem_prefixPath {P : Nat → Option Nat} {root : Nat} :
    ∀ {fuel v l}, upPath P root fuel v = some l →
      ∀ u ∈ l, ∃ g ≤ fuel, ∃ m t, upPath P root g u = some m ∧ l = m ++ t := by
  intro fuel
  induction fuel with
  | zero => intro v l h; simp [upPath] at h
  | succ f ih =>
    intro v l h u hu
    by_cases hv : v = root
    · simp [upPath, hv] at h
      subst h
      simp only [List.mem_singleton] at hu
      refine ⟨f + 1, le_refl _, [root], [], ?_, by simp⟩
      rw [hu]
      simp [upPath]
    · cases hP : P v with
      | none => simp [upPath, hv, hP] at h
      | some p =>
        have hfull : upPath P root (f + 1) v = some l := h
        simp [upPath, hv, hP] at h
        rcases h with ⟨l', hl', rfl⟩
        rcases List.mem_append.mp hu with hu' | hu'
        · rcases ih hl' u hu' with ⟨g, hg, m, t, hm, rfl⟩
          exact ⟨g, le_trans hg (Nat.le_succ f), m, t ++ [v], hm, by simp⟩
        · simp only [List.mem_singleton] at hu'
          subst hu'
          exact ⟨f + 1, le_refl _, l' ++ [u], [], hfull, by simp⟩

theorem upPath_nodup {P : Nat → Option Nat} {root : Nat} :
    ∀ {fuel v l}, upPath P root fuel v = some l → l.Nodup := by
  intro fuel
  induction fuel with
  | zero => intro v l h; simp [upPath] at h
  | succ f ih =>
    intro v l h
    by_cases hv : v = root
    · subst hv; simp [upPath] at h; subst h; simp
    · cases hP : P v with
      | none => simp [upPath, hv, hP] at h
      | some p =>
        have hfull : upPath P root (f + 1) v = some l := h
        simp [upPath, hv, hP] at h
        rcases h with ⟨l', hl', rfl⟩
        have hnd : l'.Nodup := ih hl'
        have hvnot : v ∉ l' := by
          intro hmem
          rcases upPath_mem_prefixPath hl' v hmem with ⟨g, hg, m, t, hm, heq⟩
          have h2 : upPath P root (f + 1) v = some m := upPath_mono hm (by omega)
          have h4 : l' ++ [v] = m := by
            have := hfull.symm.trans h2
            injection this
          have hlen : m.length + t.length = l'.length := by
            have := congrArg List.length heq
            simp at this
            omega
          have : (l' ++ [v]).length = l'.length + 1 := by simp
          rw [h4] at this
          omega
        simp [List.nodup_append, hnd, hvnot]

theorem upPath_count_root {P : Nat → Option Nat} {root : Nat} {fuel v l}
    (h : upPath P root fuel v = some l) : l.count root = 1 := by
  rcases upPath_root_head h with ⟨t, rfl, hroot⟩
  simp [List.count_cons, List.count_eq_zero_of_not_mem hroot]

/-- Forward subtree bridge: a non-root member of the stored root-to-`v` path
is an ancestor-or-self of `v` along the parent links. -/
theorem upPath_mem_inSubtree {P : Nat → Option Nat} {root c : Nat} :
    ∀ {fuel v l}, upPath P root fuel v = some l → c ∈ l → c ≠ root →
      inSubtree P root c fuel v = true := by
  intro fuel
  induction fuel with
  | zero => intro v l h; simp [upPath] at h
  | succ f ih =>
    intro v l h hc hcroot
    by_cases hv : v = root
    · subst hv
      simp [upPath] at h
      subst h
      simp only [List.mem_singleton] at hc
      exact absurd hc hcroot
    · cases hP : P v with
      | none => simp [upPath, hv, hP] at h
      | some p =>
        simp [upPath, hv, hP] at h
        rcases h with ⟨l', hl', rfl⟩
        by_cases hvc : v = c
        · subst hvc; simp [inSubtree, hv]
        · rcases List.mem_append.mp hc with hc' | hc'
          · have hrec := ih hl' hc' hcroot
            simp [inSubtree, hv, hvc, hP]
            exact hrec
          · simp only [List.mem_singleton] at hc'
            exact absurd hc'.symm hvc

/-- Backward subtree bridge: an ancestor-or-self `c` of `v` along the parent
links occurs on any stored root-to-`v` path. -/
theorem inSubtree_mem_upPath {P : Nat → Option Nat} {root c : Nat} :
    ∀ {g fuel v l}, upPath P root fuel v = some l →
      inSubtree P root c g v = true → c ∈ l := by
  intro g
  induction g with
  | zero => intro fuel v l _ hs; simp [inSubtree] at hs
  | succ g' ih =>
    intro fuel v l h hs
    by_cases hv : v = root
    · simp [inSubtree, hv] at hs
    · by_cases hvc : v = c
      · subst hvc; exact upPath_self_mem h
      · cases hP : P v with
        | none => simp [inSubtree, hv, hvc, hP] at hs
        | some p =>
          simp [inSubtree, hv, hvc, hP] at hs
          rcases fuel with _ | f
          · simp [upPath] at h
          · simp [upPath, hv, hP] at h
            rcases h with ⟨l', hl', rfl⟩
            exact List.mem_append.mpr (Or.inl (ih hl' hs))

/-- `inSubtree` never holds when the subtree root probed for is the tree
root itself. -/
theorem inSubtree_root_false {P : Nat → Option Nat} {root : Nat} :
    ∀ {g n}, inSubtree P root root g n = false := by
  intro g
  induction g with
  | zero => intro n; simp [inSubtree]
  | succ g' ih =>
    intro n
    by_cases hn : n = root
    · simp [inSubtree, hn]
    · cases hP : P n with
      | none => simp [inSubtree, hn, hP]
      | some p => simp [inSubtree, hn, hP, ih]

/-! ## Constructor lemmas -/

theorem dedupFirstAux_mem {a : Nat} :
    ∀ {l seen : List Nat}, a ∈ dedupFirstAux seen l ↔ a ∈ l ∧ a ∉ seen := by
  intro l
  induction l with
  | nil => intro seen; simp [dedupFirstAux]
  | cons x xs ih =>
    intro seen
    by_cases hx : x ∈ seen
    · simp only [dedupFirstAux, if_pos hx, ih, List.mem_cons]
      constructor
      · rintro ⟨hmem, hseen⟩
        exact ⟨Or.inr hmem, hseen⟩
      · rintro ⟨hax | hmem, hseen⟩
        · exact absurd (hax ▸ hx) hseen
        · exact ⟨hmem, hseen⟩
    · simp only [dedupFirstAux, if_neg hx, List.mem_cons, ih]
      by_cases hax : a = x
      · subst hax; tauto
      · tauto

theorem dedupFirst_mem {a : Nat} {l : List Nat} : a ∈ dedupFirst l ↔ a ∈ l := by
  simp [dedupFirst, dedupFirstAux_mem]

theorem getPathsAux_lookup {P : Nat → Option Nat} {root fuel : Nat} :
    ∀ {ns : List Nat} {ps : List (Nat × List Nat)},
      getPathsAux P root fuel ns = Except.ok ps →
      ∀ n, ps.lookup n =
        if n ∈ ns ∧ n ≠ root then upPath P root fuel n else none := by
  intro ns
  induction ns with
  | nil =>
    intro ps h n
    simp [getPathsAux] at h
    subst h
    simp [List.lookup]
  | cons n0 ns' ih =>
    intro ps h n
    by_cases h0 : n0 = root
    · simp only [getPathsAux, if_pos h0] at h
      have hcond : (n ∈ (n0 :: ns') ∧ n ≠ root) ↔ (n ∈ ns' ∧ n ≠ root) := by
        constructor
        · rintro ⟨hm, h2⟩
          rcases List.mem_cons.mp hm with h1 | h1
          · exact absurd (h1.trans h0) h2
          · exact ⟨h1, h2⟩
        · rintro ⟨hm, h2⟩
          exact ⟨List.mem_cons.mpr (Or.inr hm), h2⟩
      rw [if_congr hcond rfl rfl]
      exact ih h n
    · cases hup : upPath P root fuel n0 with
      | none => simp [getPathsAux, h0, hup] at h
      | some p0 =>
        cases hrec : getPathsAux P root fuel ns' with
        | error e => simp [getPathsAux, h0, hup, hrec] at h
        | ok ps' =>
          simp [getPathsAux, h0, hup, hrec] at h
          subst h
          by_cases hn : n = n0
          · subst hn
            have hc : (n ∈ (n :: ns') ∧ n ≠ root) := ⟨List.mem_cons_self _ _, h0⟩
            rw [if_pos hc, hup]
            simp [List.lookup]
          · have hstep : ((n0, p0) :: ps').lookup n = ps'.lookup n := by
              have hbeq : (n == n0) = false := by simp [hn]
              simp [List.lookup, hbeq]
            rw [hstep, ih hrec n]
            have hcond : (n ∈ ns' ∧ n ≠ root) ↔ (n ∈ (n0 :: ns') ∧ n ≠ root) := by
              constructor
              · rintro ⟨hm, h2⟩
                exact ⟨List.mem_cons.mpr (Or.inr hm), h2⟩
              · rintro ⟨hm, h2⟩
                rcases List.mem_cons.mp hm with h1 | h1
                · exact absurd h1 hn
                · exact ⟨h1, h2⟩
            rw [if_congr hcond rfl rfl]

theorem getPathsAux_ok_reachable {P : Nat → Option Nat} {root fuel : Nat} :
    ∀ {ns : List Nat} {ps : List (Nat × List Nat)},
      getPathsAux P root fuel ns = Except.ok ps →
      ∀ n ∈ ns, n ≠ root → ∃ p, upPath P root fuel n = some p := by
  intro ns
  induction ns with
  | nil => intro ps _ n hmem; simp at hmem
  | cons n0 ns' ih =>
    intro ps h n hmem hroot
    by_cases h0 : n0 = root
    · simp only [getPathsAux, if_pos h0] at h
      rcases List.mem_cons.mp hmem with h1 | h1
      · exact absurd (h1.trans h0) hroot
      · exact ih h n h1 hroot
    · cases hup : upPath P root fuel n0 with
      | none => simp [getPathsAux, h0, hup] at h
      | some p0 =>
        cases hrec : getPathsAux P root fuel ns' with
        | error e => simp [getPathsAux, h0, hup, hrec] at h
        | ok ps' =>
          rcases List.mem_cons.mp hmem with h1 | h1
          · exact ⟨p0, h1 ▸ hup⟩
          · exact ih hrec n h1 hroot

theorem getPathsAux_error_of_unreachable {P : Nat → Option Nat} {root fuel : Nat} :
    ∀ {ns : List Nat}, (∃ n ∈ ns, n ≠ root ∧ upPath P root fuel n = none) →
      ∃ e, getPathsAux P root fuel ns = Except.error e := by
  intro ns
  induction ns with
  | nil => rintro ⟨n, hmem, _⟩; simp at hmem
  | cons n0 ns' ih =>
    rintro ⟨n, hmem, hroot, hnone⟩
    by_cases h0 : n0 = root
    · rcases List.mem_cons.mp hmem with h1 | h1
      · exact absurd (h1.trans h0) hroot
      · rcases ih ⟨n, h1, hroot, hnone⟩ with ⟨e, he⟩
        exact ⟨e, by simp [getPathsAux, h0, he]⟩
    · rcases List.mem_cons.mp hmem with h1 | h1
      · subst h1
        exact ⟨"NetworkXNoPath", by simp [getPathsAux, h0, hnone]⟩
      · cases hup : upPath P root fuel n0 with
        | none => exact ⟨"NetworkXNoPath", by simp [getPathsAux, h0, hup]⟩
        | some p0 =>
          rcases ih ⟨n, h1, hroot, hnone⟩ with ⟨e, he⟩
          exact ⟨e, by simp [getPathsAux, h0, hup, he]⟩

/-- Inversion of a successful `Hierarchy.init`. -/
theorem init_ok_inv {rows : List DefRow} {ixCol : Option (List Nat)}
    {root? : Option Nat} {h : Hierarchy}
    (hok : Hierarchy.init rows ixCol root? = Except.ok h) :
    ∃ rootNode ps,
      resolvedRoot rows root? = some rootNode ∧
      (rows.map (fun r => r.name)).Nodup ∧
      getPathsAux (parentOf rows) rootNode (hfuel rows) (gNodes rows) =
        Except.ok ps ∧
      h = { rootNode := rootNode
            defDf := mkDefDf rows (ixCol.getD (List.range rows.length)) ps
            pathsDf := ps
            aggCols := [] } := by
  unfold Hierarchy.init at hok
  split at hok
  · simp at hok
  · rename_i rootNode hr
    split at hok
    · rename_i hnd
      split at hok
      · simp at hok
      · rename_i ps hps
        simp only [Except.ok.injEq] at hok
        exact ⟨rootNode, ps, hr, hnd, hps, hok.symm⟩
    · simp at hok

/-- In a list with unique names, `find?` on a member's name returns exactly
that member (pandas' unique-key left merge). -/
theorem find?_name_eq_of_mem {α : Type} (f : α → Nat) :
    ∀ {l : List α}, ((l.map f).Nodup) → ∀ {d}, d ∈ l →
      l.find? (fun x => f x == f d) = some d := by
  intro l
  induction l with
  | nil => intro _ d hd; simp at hd
  | cons a t ih =>
    intro hnd d hd
    have hnd' : ((t.map f).Nodup) := by
      simp only [List.map_cons, List.nodup_cons] at hnd
      exact hnd.2
    have hanot : f a ∉ t.map f := by
      simp only [List.map_cons, List.nodup_cons] at hnd
      exact hnd.1
    by_cases hfa : f a = f d
    · have had : a = d := by
        rcases List.mem_cons.mp hd with h1 | h1
        · exact h1.symm
        · exact absurd (hfa ▸ List.mem_map_of_mem f h1) hanot
      subst had
      simp [List.find?, hfa]
    · have hdt : d ∈ t := by
        rcases List.mem_cons.mp hd with h1 | h1
        · exact absurd (congrArg f h1.symm) hfa
        · exact h1
      have hbeq : (f a == f d) = false := by simp [hfa]
      simp [List.find?, hbeq]
      exact ih hnd' hdt

theorem zip_fst_sublist {α β : Type} :
    ∀ (l1 : List α) (l2 : List β), ((l1.zip l2).map Prod.fst).Sublist l1 := by
  intro l1
  induction l1 with
  | nil => intro l2; simp
  | cons a t ih =>
    intro l2
    cases l2 with
    | nil => simp
    | cons b t2 =>
      simp only [List.zip_cons_cons, List.map_cons]
      exact List.Sublist.cons₂ a (ih t2)

theorem mkDefDf_names_sublist (rows : List DefRow) (ixs : List Nat)
    (ps : List (Nat × List Nat)) :
    ((mkDefDf rows ixs ps).map (fun d => d.name)).Sublist
      (rows.map (fun r => r.name)) := by
  have h1 : (mkDefDf rows ixs ps).map (fun d => d.name) =
      ((rows.zip ixs).map Prod.fst).map (fun r => r.name) := by
    simp [mkDefDf, Function.comp]
  rw [h1]
  exact List.Sublist.map _ (zip_fst_sublist rows ixs)

/-- Every row of the constructed `def_df` carries the level looked up from
the `levels` dict, 999 when absent. -/
theorem mem_mkDefDf_level {rows : List DefRow} {ixs : List Nat}
    {ps : List (Nat × List Nat)} {d : HDefRow} (hd : d ∈ mkDefDf rows ixs ps) :
    d.hLevel = match ps.lookup d.name with
               | some p => p.length - 1
               | none => 999 := by
  simp only [mkDefDf, List.mem_map] at hd
  rcases hd with ⟨ri, _, rfl⟩
  rfl

/-- Every constructed `def_df` row comes from a definition row. -/
theorem mem_mkDefDf_row {rows : List DefRow} {ixs : List Nat}
    {ps : List (Nat × List Nat)} {d : HDefRow} (hd : d ∈ mkDefDf rows ixs ps) :
    ∃ r ∈ rows, d.name = r.name ∧ d.parent = r.parent ∧ d.attr = r.attr := by
  simp only [mkDefDf, List.mem_map] at hd
  rcases hd with ⟨⟨r, i⟩, hri, rfl⟩
  exact ⟨r, (List.of_mem_zip hri).1, rfl, rfl, rfl⟩

/-! ## Counting helpers -/

theorem sum_map_zero {α : Type} (l : List α) : (l.map (fun _ => (0 : Nat))).sum = 0 := by
  induction l with
  | nil => simp
  | cons a t ih => simp [ih]

theorem sum_map_add {α : Type} (l : List α) (f g : α → Nat) :
    (l.map (fun a => f a + g a)).sum = (l.map f).sum + (l.map g).sum := by
  induction l with
  | nil => simp
  | cons a t ih =>
    simp only [List.map_cons, List.sum_cons, ih]
    omega

theorem countP_eq_sum_if {α : Type} (l : List α) (p : α → Bool) :
    l.countP p = (l.map (fun a => if p a then 1 else 0)).sum := by
  induction l with
  | nil => simp
  | cons a t ih =>
    simp only [List.countP_cons, List.map_cons, List.sum_cons, ih]
    omega

theorem sum_countP_swap {α β : Type} (A : List α) (B : List β) (P : α → β → Bool) :
    (A.map (fun a => B.countP (P a))).sum =
      (B.map (fun b => A.countP (fun a => P a b))).sum := by
  induction A with
  | nil =>
    simp only [List.map_nil, List.sum_nil, List.countP_nil]
    exact (sum_map_zero B).symm
  | cons a A' ih =>
    simp only [List.map_cons, List.sum_cons, ih]
    have hsplit : (B.map (fun b => (A').countP (fun x => P x b) +
        (if P a b then 1 else 0))).sum =
        (B.map (fun b => (A').countP (fun x => P x b))).sum +
        (B.map (fun b => if P a b then 1 else 0)).sum :=
      sum_map_add B _ _
    have hcnt : (B.map (fun b => if P a b then 1 else 0)).sum = B.countP (P a) :=
      (countP_eq_sum_if B (P a)).symm
    have harm : (B.map (fun b => (a :: A').countP (fun x => P x b))).sum =
        (B.map (fun b => (A').countP (fun x => P x b) +
          (if P a b then 1 else 0))).sum := by
      congr 1
      apply List.map_congr_left
      intro b _
      simp [List.countP_cons]
    rw [harm, hsplit, hcnt]
    omega

theorem length_flatMap_sum {α β : Type} (l : List α) (f : α → List β) :
    (l.flatMap f).length = (l.map (fun a => (f a).length)).sum := by
  induction l with
  | nil => simp
  | cons a t ih => simp [List.flatMap_cons, ih]

theorem countP_flatMap_sum {α β : Type} (l : List α) (f : α → List β) (p : β → Bool) :
    (l.flatMap f).countP p = (l.map (fun a => (f a).countP p)).sum := by
  induction l with
  | nil => simp
  | cons a t ih => simp [List.flatMap_cons, List.countP_append, ih]

theorem countP_filterMap_any {α β : Type} (l : List α) (f : α → Option β) (p : β → Bool) :
    (l.filterMap f).countP p = l.countP (fun a => (f a).any p) := by
  induction l with
  | nil => simp
  | cons a t ih =>
    cases hf : f a with
    | none => simp [List.filterMap_cons, hf, List.countP_cons, ih, Option.any]
    | some b => simp [List.filterMap_cons, hf, List.countP_cons, ih, Option.any]

/-! ## Melt counting lemmas -/

/-- Whether a melted cell survives `query` (drop the root key) and `dropna`. -/
def keepCell (root : Nat) (o : Option Nat) : Bool :=
  match o with
  | none => false
  | some v => decide (v ≠ root)

theorem meltCell_isSome (h : Hierarchy) (i : Nat) (r : FactRow) :
    (h.meltCell i r).isSome =
      keepCell h.rootNode ((h.pathsDf.lookup r.node).bind (fun p => p.get? i)) := by
  unfold Hierarchy.meltCell
  cases hv : (h.pathsDf.lookup r.node).bind (fun p => p.get? i) with
  | none => simp [keepCell]
  | some v =>
    by_cases hroot : v = h.rootNode
    · simp [keepCell, hroot]
    · simp [keepCell, hroot]

theorem countP_range_all_kept {root : Nat} :
    ∀ (t : List Nat) (K : Nat), root ∉ t → t.length ≤ K →
      (List.range K).countP (fun i => keepCell root (t.get? i)) = t.length := by
  intro t
  induction t with
  | nil =>
    intro K _ _
    apply List.countP_eq_zero.mpr
    intro i _
    simp [keepCell]
  | cons a t' ih =>
    intro K hroot hlen
    rcases K with _ | K'
    · simp at hlen
    rw [List.range_succ_eq_map]
    simp only [List.countP_cons, List.countP_map]
    have ha : a ≠ root := by
      intro hcontra
      exact hroot (hcontra ▸ List.mem_cons_self a t')
    have h0 : keepCell root ((a :: t').get? 0) = true := by
      simp [keepCell, ha]
    have hshift : (List.range K').countP
        ((fun i => keepCell root ((a :: t').get? i)) ∘ Nat.succ) =
        (List.range K').countP (fun i => keepCell root (t'.get? i)) := by
      apply List.countP_congr
      intro i _
      simp [Function.comp]
    rw [hshift, ih K' (fun hm => hroot (List.mem_cons_of_mem a hm)) (by simp at hlen; omega)]
    have h0' : keepCell root (some a) = true := by simp [keepCell, ha]
    simp only [List.get?_cons_zero, h0', List.length_cons]
    simp

/-- Number of melt cells a fact row with stored path `root :: t` keeps:
every path entry except the root itself, i.e. the row's level. -/
theorem countP_range_path {root : Nat} {t : List Nat} {K : Nat}
    (hroot : root ∉ t) (hlen : (root :: t).length ≤ K) :
    (List.range K).countP (fun i => keepCell root ((root :: t).get? i)) = t.length := by
  rcases K with _ | K'
  · simp at hlen
  rw [List.range_succ_eq_map]
  simp only [List.countP_cons, List.countP_map]
  have h0 : keepCell root ((root :: t).get? 0) = false := by
    simp [keepCell]
  have hshift : (List.range K').countP
      ((fun i => keepCell root ((root :: t).get? i)) ∘ Nat.succ) =
      (List.range K').countP (fun i => keepCell root (t.get? i)) := by
    apply List.countP_congr
    intro i _
    simp [Function.comp]
  rw [hshift, countP_range_all_kept t K' hroot (by simp at hlen; omega)]
  have h0' : keepCell root (some root) = false := by simp [keepCell]
  simp only [List.get?_cons_zero, h0']
  simp

theorem countP_range_get_eq {c : Nat} :
    ∀ (p : List Nat) (K : Nat), p.length ≤ K →
      (List.range K).countP (fun i => decide (p.get? i = some c)) = p.count c := by
  intro p
  induction p with
  | nil =>
    intro K _
    apply List.countP_eq_zero.mpr
    intro i _
    simp
  | cons a p' ih =>
    intro K hlen
    rcases K with _ | K'
    · simp at hlen
    rw [List.range_succ_eq_map]
    simp only [List.countP_cons, List.countP_map]
    have hshift : (List.range K').countP
        ((fun i => decide ((a :: p').get? i = some c)) ∘ Nat.succ) =
        (List.range K').countP (fun i => decide (p'.get? i = some c)) := by
      apply List.countP_congr
      intro i _
      simp [Function.comp]
    rw [hshift, ih K' (by simp at hlen; omega)]
    by_cases hac : a = c
    · simp [hac, List.count_cons]
    · simp [hac, List.count_cons]

theorem lookup_mem {β : Type} :
    ∀ {l : List (Nat × β)} {n : Nat} {b : β}, l.lookup n = some b → (n, b) ∈ l := by
  intro l
  induction l with
  | nil => intro n b h; simp [List.lookup] at h
  | cons a t ih =>
    intro n b h
    rcases a with ⟨k, v⟩
    by_cases hk : n = k
    · subst hk
      simp [List.lookup] at h
      subst h
      exact List.mem_cons_self _ _
    · have hbeq : (n == k) = false := by simp [hk]
      simp [List.lookup, hbeq] at h
      exact List.mem_cons_of_mem _ (ih h)

theorem le_foldr_max : ∀ {l : List Nat} {a : Nat}, a ∈ l → a ≤ l.foldr Nat.max 0 := by
  intro l
  induction l with
  | nil => intro a h; simp at h
  | cons x t ih =>
    intro a h
    rcases List.mem_cons.mp h with rfl | h'
    · exact Nat.le_max_left _ _
    · exact le_trans (ih h') (Nat.le_max_right _ _)

theorem pathsK_bound {h : Hierarchy} {n : Nat} {p : List Nat}
    (hlk : h.pathsDf.lookup n = some p) : p.length ≤ h.pathsK := by
  have hmem : (n, p) ∈ h.pathsDf := lookup_mem hlk
  have : p.length ∈ h.pathsDf.map (fun np => np.2.length) :=
    List.mem_map_of_mem _ hmem
  exact le_foldr_max this

/-! ## Facts about constructed hierarchies -/

theorem init_path_upPath {rows : List DefRow} {ixCol : Option (List Nat)}
    {root? : Option Nat} {h : Hierarchy}
    (hok : Hierarchy.init rows ixCol root? = Except.ok h) :
    ∀ {n p}, h.pathsDf.lookup n = some p →
      upPath (parentOf rows) h.rootNode (hfuel rows) n = some p := by
  rcases init_ok_inv hok with ⟨rootNode, ps, _, _, hps, rfl⟩
  intro n p hlk
  have hl := getPathsAux_lookup hps n
  simp only at hlk
  rw [hlk] at hl
  by_cases hcond : n ∈ gNodes rows ∧ n ≠ rootNode
  · rw [if_pos hcond] at hl
    exact hl.symm
  · rw [if_neg hcond] at hl
    simp at hl

theorem init_root_lookup_none {rows : List DefRow} {ixCol : Option (List Nat)}
    {root? : Option Nat} {h : Hierarchy}
    (hok : Hierarchy.init rows ixCol root? = Except.ok h) :
    h.pathsDf.lookup h.rootNode = none := by
  rcases init_ok_inv hok with ⟨rootNode, ps, _, _, hps, rfl⟩
  have hl := getPathsAux_lookup hps rootNode
  simpa using hl

theorem init_path_shape {rows : List DefRow} {ixCol : Option (List Nat)}
    {root? : Option Nat} {h : Hierarchy}
    (hok : Hierarchy.init rows ixCol root? = Except.ok h)
    {n p} (hlk : h.pathsDf.lookup n = some p) :
    ∃ t, p = h.rootNode :: t ∧ h.rootNode ∉ t ∧ p.Nodup := by
  have hup := init_path_upPath hok hlk
  rcases upPath_root_head hup with ⟨t, rfl, hroot⟩
  exact ⟨t, rfl, hroot, upPath_nodup hup⟩

theorem init_defDf_names_nodup {rows : List DefRow} {ixCol : Option (List Nat)}
    {root? : Option Nat} {h : Hierarchy}
    (hok : Hierarchy.init rows ixCol root? = Except.ok h) :
    (h.defDf.map (fun d => d.name)).Nodup := by
  rcases init_ok_inv hok with ⟨rootNode, ps, _, hnd, _, rfl⟩
  exact (mkDefDf_names_sublist rows _ ps).nodup hnd

/-! ## Per-row melt lemmas -/

theorem meltCell_any_node (h : Hierarchy) (i : Nat) (r : FactRow) {c : Nat}
    (hc : c ≠ h.rootNode) :
    (h.meltCell i r).any (fun e => e.node == c) =
      decide (((h.pathsDf.lookup r.node).getD []).get? i = some c) := by
  cases hlk : h.pathsDf.lookup r.node with
  | none =>
    unfold Hierarchy.meltCell
    rw [hlk]
    simp
  | some p =>
    cases hg : p.get? i with
    | none =>
      unfold Hierarchy.meltCell
      rw [hlk]
      simp only [Option.some_bind, Option.getD_some]
      simp only [hg]
      simp
    | some v =>
      unfold Hierarchy.meltCell
      rw [hlk]
      simp only [Option.some_bind, Option.getD_some]
      simp only [hg]
      by_cases hroot : v = h.rootNode
      · have hvc : ¬ h.rootNode = c := fun hvc => hc hvc.symm
        simp [hroot, hvc]
      · simp [hroot, Option.any]
        rfl

theorem meltKept_length (h : Hierarchy)
    (hshape : ∀ n p, h.pathsDf.lookup n = some p →
      ∃ t, p = h.rootNode :: t ∧ h.rootNode ∉ t)
    (df : List FactRow) :
    (h.meltKept df).length =
      (df.map (fun r => ((h.pathsDf.lookup r.node).getD []).length - 1)).sum := by
  unfold Hierarchy.meltKept
  rw [length_flatMap_sum]
  have hmap : (List.range h.pathsK).map
      (fun i => (df.filterMap (h.meltCell i)).length) =
      (List.range h.pathsK).map
        (fun i => df.countP (fun r => (h.meltCell i r).isSome)) := by
    apply List.map_congr_left
    intro i _
    exact List.length_filterMap_eq_countP _ _
  rw [hmap, sum_countP_swap]
  congr 1
  apply List.map_congr_left
  intro r _
  have hpred : (List.range h.pathsK).countP (fun i => (h.meltCell i r).isSome) =
      (List.range h.pathsK).countP
        (fun i => keepCell h.rootNode
          ((h.pathsDf.lookup r.node).bind (fun p => p.get? i))) := by
    apply List.countP_congr
    intro i _
    simp [meltCell_isSome]
  rw [hpred]
  cases hlk : h.pathsDf.lookup r.node with
  | none =>
    apply Eq.trans (b := 0)
    · apply List.countP_eq_zero.mpr
      intro i _
      simp [keepCell]
    · simp
  | some p =>
    rcases hshape r.node p hlk with ⟨t, rfl, hroot⟩
    have hK : (h.rootNode :: t).length ≤ h.pathsK := pathsK_bound hlk
    simp only [Option.some_bind, Option.getD_some]
    rw [countP_range_path hroot hK]
    simp

theorem meltKept_countP_node (h : Hierarchy) {c : Nat} (hc : c ≠ h.rootNode)
    (df : List FactRow) :
    (h.meltKept df).countP (fun e => e.node == c) =
      (df.map (fun r => ((h.pathsDf.lookup r.node).getD []).count c)).sum := by
  unfold Hierarchy.meltKept
  rw [countP_flatMap_sum]
  have hmap : (List.range h.pathsK).map
      (fun i => (df.filterMap (h.meltCell i)).countP (fun e => e.node == c)) =
      (List.range h.pathsK).map
        (fun i => df.countP (fun r => (h.meltCell i r).any (fun e => e.node == c))) := by
    apply List.map_congr_left
    intro i _
    exact countP_filterMap_any _ _ _
  rw [hmap, sum_countP_swap]
  congr 1
  apply List.map_congr_left
  intro r _
  have hpred : (List.range h.pathsK).countP
      (fun i => (h.meltCell i r).any (fun e => e.node == c)) =
      (List.range h.pathsK).countP
        (fun i => decide (((h.pathsDf.lookup r.node).getD []).get? i = some c)) := by
    apply List.countP_congr
    intro i _
    simp [meltCell_any_node h i r hc]
  rw [hpred]
  cases hlk : h.pathsDf.lookup r.node with
  | none =>
    simpa using countP_range_get_eq [] h.pathsK (by simp)
  | some p =>
    simpa using countP_range_get_eq p h.pathsK (pathsK_bound hlk)

theorem expand_perm_meltKept (h : Hierarchy) (df : List FactRow) :
    (h.expand df).Perm (h.meltKept df) :=
  List.perm_insertionSort eLE (h.meltKept df)

/-! ## The demonstration scenario -/

/-- The definition table of the spec scenario
`{1:0, 12:1, 120:12, 121:12, 122:12, 13:1, 130:13, 1301:130, 2:0, 21:2}`
(each row `child : parent`), in the source's row order. -/
def demoTable : List DefRow :=
  [⟨1, 0, ""⟩, ⟨12, 1, ""⟩, ⟨120, 12, ""⟩, ⟨121, 12, ""⟩, ⟨122, 12, ""⟩,
   ⟨13, 1, ""⟩, ⟨130, 13, ""⟩, ⟨1301, 130, ""⟩, ⟨2, 0, ""⟩, ⟨21, 2, ""⟩]

/-- The hierarchy the scenario constructs (root `0`). -/
def demoH : Hierarchy :=
  (Hierarchy.init demoTable none (some 0)).toOption.getD
    { rootNode := 0, defDf := [], pathsDf := [], aggCols := [] }

/-! ## Claim C1 -/

/-- Claim C1: for every valid node definition table and every node reachable
from the root, the level recorded on that node's `def_df` row equals the
length of the stored root-to-node path minus one; the root is never a key of
the path mapping; and in the scenario tree with root 0, node 121 gets path
`[0, 1, 12, 121]` and level 3. -/
theorem claim_C1 (rows : List DefRow) (ixCol : Option (List Nat))
    (root? : Option Nat) (h : Hierarchy)
    (hok : Hierarchy.init rows ixCol root? = Except.ok h) :
    (∀ n p, h.pathsDf.lookup n = some p →
       ∀ d ∈ h.defDf, d.name = n → d.hLevel = p.length - 1)
    ∧ h.pathsDf.lookup h.rootNode = none
    ∧ demoH.pathsDf.lookup 121 = some [0, 1, 12, 121]
    ∧ (∀ d ∈ demoH.defDf, d.name = 121 → d.hLevel = 3) := by
  refine ⟨?_, init_root_lookup_none hok, by decide, by decide⟩
  intro n p hlk d hd hname
  rcases init_ok_inv hok with ⟨rootNode, ps, _, _, _, rfl⟩
  have hlev := mem_mkDefDf_level hd
  rw [hlev, hname]
  simp only at hlk
  simp only [hlk]

/-- Witness for C1 on the scenario table. -/
theorem claim_C1_witness :
    Hierarchy.init demoTable none (some 0) = Except.ok demoH ∧
    demoH.pathsDf.lookup 121 = some [0, 1, 12, 121] ∧
    (∀ d ∈ demoH.defDf, d.name = 121 → d.hLevel = 3) ∧
    demoH.pathsDf.lookup demoH.rootNode = none := by
  have hok : Hierarchy.init demoTable none (some 0) = Except.ok demoH := by rfl
  have hmain := claim_C1 demoTable none (some 0) demoH hok
  exact ⟨hok, hmain.2.2.1, hmain.2.2.2, hmain.2.1⟩

/-! ## Claim C4 -/

/-- Counterexample for C4 as stated: on the table `{1:0, 3:2}` with root 0,
node 3 (and the phantom parent node 2) has no path from the root; the claim
says construction does not abort and assigns sentinel level 999, but
`__init__` raises (`nx.shortest_path` raises `NetworkXNoPath`), so no
hierarchy is built at all. -/
theorem claim_C4_counterexample :
    isErr (Hierarchy.init [⟨1, 0, ""⟩, ⟨3, 2, ""⟩] none (some 0)) = true := by
  rfl

/-- Claim C4, amended: when some non-root node of the definition graph has
no path from the root (disconnected subgraph or cycle), construction aborts
with an error; unreachable nodes never receive the 999 sentinel because no
`def_df` is produced. -/
theorem claim_C4 (rows : List DefRow) (ixCol : Option (List Nat))
    (root? : Option Nat) (rootNode : Nat)
    (hroot : resolvedRoot rows root? = some rootNode)
    (hunreach : ∃ n ∈ gNodes rows, n ≠ rootNode ∧
      upPath (parentOf rows) rootNode (hfuel rows) n = none) :
    ∃ e, Hierarchy.init rows ixCol root? = Except.error e := by
  cases hinit : Hierarchy.init rows ixCol root? with
  | error e => exact ⟨e, rfl⟩
  | ok h =>
    exfalso
    rcases init_ok_inv hinit with ⟨rootNode', ps, hr', _, hps, rfl⟩
    rcases hunreach with ⟨n, hmem, hne, hnone⟩
    have heq : rootNode = rootNode' := by
      rw [hroot] at hr'
      injection hr'
    subst heq
    rcases getPathsAux_ok_reachable hps n hmem hne with ⟨p, hp⟩
    rw [hp] at hnone
    exact Option.noConfusion hnone

/-- Witness for C4 on the concrete disconnected table. -/
theorem claim_C4_witness :
    ∃ e, Hierarchy.init [⟨1, 0, ""⟩, ⟨3, 2, ""⟩] none (some 0) =
      Except.error e := by
  apply claim_C4 [⟨1, 0, ""⟩, ⟨3, 2, ""⟩] none (some 0) 0 (by rfl)
  exact ⟨2, by decide, by decide, by rfl⟩

/-! ## Claim C10 -/

/-- The hierarchy built from a table in which the root key `0` itself
appears as a row (`0`'s parent is `1`, `1`'s parent is the root `0`). -/
def rootRowH : Hierarchy :=
  (Hierarchy.init [⟨1, 0, ""⟩, ⟨0, 1, ""⟩] none (some 0)).toOption.getD
    { rootNode := 0, defDf := [], pathsDf := [], aggCols := [] }

/-- Counterexample for C10 as stated: the stored path of node 1 is `[0, 1]`,
so the root key 0 *is* an entry of a stored path (it heads every path), and
the `def_df` row whose key is the root gets level 999 (the `fillna`
sentinel), not level 0. -/
theorem claim_C10_counterexample :
    Hierarchy.init [⟨1, 0, ""⟩, ⟨0, 1, ""⟩] none (some 0) = Except.ok rootRowH ∧
    0 ∈ ((rootRowH.pathsDf.lookup 1).getD []) ∧
    (∃ d ∈ rootRowH.defDf, d.name = 0 ∧ d.hLevel = 999 ∧ ¬ d.hLevel = 0) := by
  refine ⟨by rfl, by decide, by decide⟩

/-- Claim C10, amended: after construction the root key is never a *key* of
the path mapping, but it appears as the first entry of every stored path;
and a `def_df` row whose key is the root receives the sentinel level 999
(not 0). -/
theorem claim_C10 (rows : List DefRow) (ixCol : Option (List Nat))
    (root? : Option Nat) (h : Hierarchy)
    (hok : Hierarchy.init rows ixCol root? = Except.ok h) :
    h.pathsDf.lookup h.rootNode = none
    ∧ (∀ n p, h.pathsDf.lookup n = some p →
        p.head? = some h.rootNode ∧ h.rootNode ∈ p)
    ∧ (∀ d ∈ h.defDf, d.name = h.rootNode → d.hLevel = 999) := by
  refine ⟨init_root_lookup_none hok, ?_, ?_⟩
  · intro n p hlk
    rcases init_path_shape hok hlk with ⟨t, rfl, _, _⟩
    exact ⟨rfl, List.mem_cons_self _ _⟩
  · intro d hd hname
    have hnone := init_root_lookup_none hok
    rcases init_ok_inv hok with ⟨rootNode, ps, _, _, _, rfl⟩
    have hlev := mem_mkDefDf_level hd
    rw [hlev, hname]
    simp only at hnone
    simp only [hnone]

/-- Witness for C10 on the table containing the root as a row. -/
theorem claim_C10_witness :
    Hierarchy.init [⟨1, 0, ""⟩, ⟨0, 1, ""⟩] none (some 0) = Except.ok rootRowH ∧
    rootRowH.pathsDf.lookup rootRowH.rootNode = none ∧
    (∀ d ∈ rootRowH.defDf, d.name = rootRowH.rootNode → d.hLevel = 999) := by
  have hok : Hierarchy.init [⟨1, 0, ""⟩, ⟨0, 1, ""⟩] none (some 0) =
      Except.ok rootRowH := by rfl
  have hmain := claim_C10 [⟨1, 0, ""⟩, ⟨0, 1, ""⟩] none (some 0) rootRowH hok
  exact ⟨hok, hmain.1, hmain.2.2⟩

/-! ## Claim C5 -/

theorem meltCell_none_of_lookup_none (h : Hierarchy) (i : Nat) {r : FactRow}
    (hlk : h.pathsDf.lookup r.node = none) : h.meltCell i r = none := by
  unfold Hierarchy.meltCell
  simp [hlk]

theorem filterMap_eq_filterMap_filter {α β : Type} (q : α → Bool) (F : α → Option β)
    (hq : ∀ a, q a = false → F a = none) :
    ∀ l : List α, l.filterMap F = (l.filter q).filterMap F := by
  intro l
  induction l with
  | nil => simp
  | cons a t ih =>
    cases hqa : q a with
    | false =>
      simp only [List.filter_cons, hqa, if_neg Bool.false_ne_true,
        List.filterMap_cons, hq a hqa]
      exact ih
    | true =>
      simp only [List.filter_cons, hqa, if_true, List.filterMap_cons, ih]

/-- Claim C5: a fact row whose node key is absent from the tree is silently
excluded from `expand`'s output — expanding a table equals expanding the
table with the unknown-key rows filtered away (left-join semantics, no
error), and a single unknown-key row expands to nothing. -/
theorem claim_C5 (rows : List DefRow) (ixCol : Option (List Nat))
    (root? : Option Nat) (h : Hierarchy)
    (hok : Hierarchy.init rows ixCol root? = Except.ok h) (df : List FactRow) :
    h.expand df =
      h.expand (df.filter (fun r => (h.pathsDf.lookup r.node).isSome))
    ∧ (∀ r : FactRow, h.pathsDf.lookup r.node = none → h.expand [r] = []) := by
  constructor
  · unfold Hierarchy.expand Hierarchy.meltKept
    have hper : ∀ i, df.filterMap (h.meltCell i) =
        (df.filter (fun r => (h.pathsDf.lookup r.node).isSome)).filterMap
          (h.meltCell i) := by
      intro i
      apply filterMap_eq_filterMap_filter
      intro a ha
      apply meltCell_none_of_lookup_none
      simpa using ha
    simp only [hper]
  · intro r hlk
    unfold Hierarchy.expand Hierarchy.meltKept
    have hcell : ∀ i, ([r].filterMap (h.meltCell i)) = ([] : List ExpRow) := by
      intro i
      simp [List.filterMap, meltCell_none_of_lookup_none h i hlk]
    simp only [hcell]
    have hnil : ∀ K : Nat, (List.range K).flatMap (fun _ => ([] : List ExpRow)) = [] := by
      intro K
      induction (List.range K) with
      | nil => rfl
      | cons a t ih => simp [List.flatMap_cons, ih]
    rw [hnil]
    rfl

/-- Witness for C5: in the scenario tree, a fact row referencing the unknown
key 99 expands to nothing and does not disturb the expansion of the rest. -/
theorem claim_C5_witness :
    Hierarchy.init demoTable none (some 0) = Except.ok demoH ∧
    demoH.expand [⟨99, "x"⟩] = [] ∧
    demoH.expand [⟨121, "574"⟩, ⟨99, "x"⟩] =
      demoH.expand ([⟨121, "574"⟩, ⟨99, "x"⟩].filter
        (fun r => (demoH.pathsDf.lookup r.node).isSome)) := by
  have hok : Hierarchy.init demoTable none (some 0) = Except.ok demoH := by rfl
  have hmain := claim_C5 demoTable none (some 0) demoH hok
    [⟨121, "574"⟩, ⟨99, "x"⟩]
  exact ⟨hok, (claim_C5 demoTable none (some 0) demoH hok [⟨99, "x"⟩]).2
    ⟨99, "x"⟩ (by rfl), hmain.1⟩

/-! ## Claim C2 -/

theorem flatMap_eq_nil_of_forall {α β : Type} :
    ∀ {l : List α} {f : α → List β}, (∀ b ∈ l, f b = []) → l.flatMap f = [] := by
  intro l
  induction l with
  | nil => intro f _; rfl
  | cons x t ih =>
    intro f hz
    simp only [List.flatMap_cons, hz x (List.mem_cons_self _ _), List.nil_append]
    exact ih (fun b hb => hz b (List.mem_cons_of_mem _ hb))

theorem flatMap_eq_single {α β : Type} :
    ∀ {l : List α} {f : α → List β} {a : α}, l.Nodup → a ∈ l →
      (∀ b ∈ l, b ≠ a → f b = []) → l.flatMap f = f a := by
  intro l
  induction l with
  | nil => intro f a _ ha; simp at ha
  | cons x t ih =>
    intro f a hnd ha hz
    rcases List.mem_cons.mp ha with rfl | ha'
    · simp only [List.flatMap_cons]
      have hxnot : a ∉ t := (List.nodup_cons.mp hnd).1
      have ht : t.flatMap f = [] :=
        flatMap_eq_nil_of_forall (fun b hb =>
          hz b (List.mem_cons_of_mem _ hb) (fun hba => hxnot (hba ▸ hb)))
      simp [ht]
    · have hxa : x ≠ a := by
        intro hcontra
        exact (List.nodup_cons.mp hnd).1 (hcontra ▸ ha')
      simp only [List.flatMap_cons, hz x (List.mem_cons_self _ _) hxa,
        List.nil_append]
      exact ih (List.nodup_cons.mp hnd).2 ha'
        (fun b hb => hz b (List.mem_cons_of_mem _ hb))

theorem filter_flatMap {α β : Type} (l : List α) (f : α → List β) (q : β → Bool) :
    (l.flatMap f).filter q = l.flatMap (fun a => (f a).filter q) := by
  induction l with
  | nil => rfl
  | cons x t ih => simp [List.flatMap_cons, List.filter_append, ih]

theorem meltCell_hLevel {h : Hierarchy} {j : Nat} {r : FactRow} {e : ExpRow}
    (hcell : h.meltCell j r = some e) : e.hLevel = j := by
  unfold Hierarchy.meltCell at hcell
  split at hcell
  · exact Option.noConfusion hcell
  · split at hcell
    · exact Option.noConfusion hcell
    · injection hcell with he
      rw [← he]

theorem meltKept_filter_level (h : Hierarchy) (r : FactRow) {p : List Nat}
    (hlk : h.pathsDf.lookup r.node = some p) {i : Nat} (hi1 : 1 ≤ i)
    (hilen : i < p.length)
    (hshape : ∃ t, p = h.rootNode :: t ∧ h.rootNode ∉ t) :
    ∃ v, p.get? i = some v ∧ v ≠ h.rootNode ∧
      (h.meltKept [r]).filter (fun e => e.hLevel == i) =
        [{ val := r.val, node := v, hLevel := i,
           hIx := ((h.defDf.find? (fun d => d.name == v)).map (fun d => d.hIx)),
           attr := ((h.defDf.find? (fun d => d.name == v)).map (fun d => d.attr)) }] := by
  rcases hshape with ⟨t, rfl, hroot⟩
  rcases i with _ | i'
  · omega
  have hlen' : i' < t.length := by
    simp only [List.length_cons] at hilen
    omega
  have hget : (h.rootNode :: t).get? (i' + 1) = some (t.get ⟨i', hlen'⟩) := by
    simp [List.get?_cons_succ, List.get?_eq_get hlen']
  set v := t.get ⟨i', hlen'⟩ with hv
  have hvmem : v ∈ t := List.get_mem t i' hlen'
  have hvroot : v ≠ h.rootNode := fun hc => hroot (hc ▸ hvmem)
  refine ⟨v, hget, hvroot, ?_⟩
  have hcell : h.meltCell (i' + 1) r =
      some { val := r.val, node := v, hLevel := i' + 1,
             hIx := ((h.defDf.find? (fun d => d.name == v)).map (fun d => d.hIx)),
             attr := ((h.defDf.find? (fun d => d.name == v)).map (fun d => d.attr)) } := by
    unfold Hierarchy.meltCell
    simp only [hlk, Option.some_bind, hget]
    simp [hvroot]
  have hKbound : i' + 1 < h.pathsK := by
    have := pathsK_bound hlk
    simp only [List.length_cons] at this
    omega
  unfold Hierarchy.meltKept
  rw [filter_flatMap]
  have hmain := flatMap_eq_single (f := fun j =>
      (([r].filterMap (h.meltCell j)).filter (fun e => e.hLevel == i' + 1)))
      (a := i' + 1) (List.nodup_range h.pathsK) (List.mem_range.mpr hKbound) ?_
  · rw [hmain]
    simp only [List.filterMap, hcell]
    simp [List.filter]
  · intro j _ hji
    cases hcj : h.meltCell j r with
    | none => simp [List.filterMap, hcj]
    | some e =>
      have hej : e.hLevel = j := meltCell_hLevel hcj
      have : (e.hLevel == i' + 1) = false := by
        simp [hej, hji]
      simp [List.filterMap, hcj, List.filter, this]

/-- Claim C2: for every fact row whose node key is in the tree at level `L`
(stored path length `L + 1`), `expand` emits exactly `L` output rows — one
per ancestor level `1..L`, the root excluded — each row carrying the fact's
columns with the node-reference column rewritten to that ancestor's key and
the ancestor's `h_ix`/attribute columns joined on the rewritten key; and for
a whole fact table the output has exactly the sum of the levels of the
referenced nodes (unknown references contribute 0 rows). -/
theorem claim_C2 (rows : List DefRow) (ixCol : Option (List Nat))
    (root? : Option Nat) (h : Hierarchy)
    (hok : Hierarchy.init rows ixCol root? = Except.ok h) :
    (∀ df : List FactRow,
      (h.expand df).length =
        (df.map (fun r => ((h.pathsDf.lookup r.node).getD []).length - 1)).sum)
    ∧ (∀ (r : FactRow) (p : List Nat), h.pathsDf.lookup r.node = some p →
        ∀ i, 1 ≤ i → i < p.length →
          ((h.expand [r]).filter (fun e => e.hLevel == i)).length = 1 ∧
          ∀ e ∈ (h.expand [r]).filter (fun e => e.hLevel == i),
            e.val = r.val ∧ p.get? i = some e.node ∧
            (∀ d ∈ h.defDf, d.name = e.node →
              e.hIx = some d.hIx ∧ e.attr = some d.attr)) := by
  constructor
  · intro df
    rw [(expand_perm_meltKept h df).length_eq]
    refine meltKept_length h ?_ df
    intro n p hlk
    rcases init_path_shape hok hlk with ⟨t, he, hr, _⟩
    exact ⟨t, he, hr⟩
  · intro r p hlk i hi1 hilen
    have hshape : ∃ t, p = h.rootNode :: t ∧ h.rootNode ∉ t := by
      rcases init_path_shape hok hlk with ⟨t, he, hr, _⟩
      exact ⟨t, he, hr⟩
    rcases meltKept_filter_level h r hlk hi1 hilen hshape with
      ⟨v, hget, hvroot, hfilter⟩
    have hperm := (expand_perm_meltKept h [r]).filter (fun e => e.hLevel == i)
    rw [hfilter] at hperm
    have heq := List.perm_singleton.mp hperm
    rw [heq]
    refine ⟨rfl, ?_⟩
    intro e he
    simp only [List.mem_singleton] at he
    subst he
    refine ⟨rfl, by rw [hget], ?_⟩
    intro d hd hname
    dsimp only at hname ⊢
    have hnd := init_defDf_names_nodup hok
    have hfind : h.defDf.find? (fun x => x.name == d.name) = some d :=
      find?_name_eq_of_mem (fun x => x.name) hnd hd
    rw [← hname, hfind]
    exact ⟨rfl, rfl⟩

/-- Witness for C2 on the scenario: expanding one fact row referencing node
121 (level 3) yields exactly 3 rows, tagged with keys 1, 12, 121 at levels
1, 2, 3. -/
theorem claim_C2_witness :
    (demoH.expand [⟨121, "574"⟩]).length = 3 ∧
    ((demoH.expand [⟨121, "574"⟩]).filter (fun e => e.hLevel == 2)).length = 1 ∧
    (demoH.expand [⟨121, "574"⟩]).map (fun e => (e.node, e.hLevel)) =
      [(1, 1), (12, 2), (121, 3)] := by
  have hok : Hierarchy.init demoTable none (some 0) = Except.ok demoH := by rfl
  have hmain := claim_C2 demoTable none (some 0) demoH hok
  refine ⟨?_, ?_, by decide⟩
  · rw [hmain.1 [⟨121, "574"⟩]]
    decide
  · exact (hmain.2 ⟨121, "574"⟩ [0, 1, 12, 121] (by rfl) 2 (by decide)
      (by decide)).1

/-! ## Claim C3 -/

theorem inSubtree_at_root {P : Nat → Option Nat} {root c : Nat} :
    ∀ g, inSubtree P root c g root = false := by
  intro g
  cases g with
  | zero => rfl
  | succ g' => simp [inSubtree]

theorem inSubtree_false_of_no_parent {P : Nat → Option Nat} {root c n : Nat}
    (hP : P n = none) (hnc : n ≠ c) :
    ∀ g, inSubtree P root c g n = false := by
  intro g
  cases g with
  | zero => rfl
  | succ g' =>
    by_cases hroot : n = root
    · simp [inSubtree, hroot]
    · simp [inSubtree, hroot, hnc, hP]

theorem notin_gNodes_parentOf_none {rows : List DefRow} {n : Nat}
    (hn : n ∉ gNodes rows) : parentOf rows n = none := by
  unfold parentOf
  cases hfind : rows.find? (fun r => r.name == n) with
  | none => rfl
  | some r =>
    exfalso
    have hr : r ∈ rows := List.mem_of_find?_eq_some hfind
    have hname : r.name = n := by
      have := List.find?_some hfind
      simpa using this
    apply hn
    unfold gNodes
    rw [dedupFirst_mem]
    exact List.mem_flatMap.mpr ⟨r, hr, by simp [hname]⟩

theorem name_mem_gNodes {rows : List DefRow} {r0 : DefRow} (hr : r0 ∈ rows) :
    r0.name ∈ gNodes rows := by
  unfold gNodes
  rw [dedupFirst_mem]
  exact List.mem_flatMap.mpr ⟨r0, hr, by simp⟩

/-- Every surviving melt row's node key differs from the root (the `query`
step removed it). -/
theorem meltCell_node_ne_root {h : Hierarchy} {j : Nat} {r : FactRow} {e : ExpRow}
    (hcell : h.meltCell j r = some e) : e.node ≠ h.rootNode := by
  unfold Hierarchy.meltCell at hcell
  split at hcell
  · exact Option.noConfusion hcell
  · rename_i v hv
    split at hcell
    · exact Option.noConfusion hcell
    · rename_i hroot
      injection hcell with he
      rw [← he]
      exact hroot

theorem mem_meltKept_cell {h : Hierarchy} {df : List FactRow} {e : ExpRow}
    (he : e ∈ h.meltKept df) : ∃ j r, r ∈ df ∧ h.meltCell j r = some e := by
  unfold Hierarchy.meltKept at he
  rcases List.mem_flatMap.mp he with ⟨j, _, hmem⟩
  rcases List.mem_filterMap.mp hmem with ⟨r, hr, hcell⟩
  exact ⟨j, r, hr, hcell⟩

/-- Claim C3: grouping `expand`'s output by node key and counting yields,
for each immediate child `c` of the root (and in fact for any non-root
probe), exactly the number of fact rows whose referenced node lies in `c`'s
subtree, `c` itself included — the flat groupby equals the recursive subtree
aggregate. -/
theorem claim_C3 (rows : List DefRow) (ixCol : Option (List Nat))
    (root? : Option Nat) (h : Hierarchy)
    (hok : Hierarchy.init rows ixCol root? = Except.ok h) (c : Nat)
    (hchild : ∃ r0 ∈ rows, r0.name = c ∧ r0.parent = h.rootNode)
    (df : List FactRow) :
    groupCount (h.expand df) c =
      df.countP (fun r =>
        inSubtree (parentOf rows) h.rootNode c (hfuel rows) r.node) := by
  unfold groupCount
  rw [← List.countP_eq_length_filter,
    (expand_perm_meltKept h df).countP_eq (fun e => e.node == c)]
  by_cases hcroot : c = h.rootNode
  · subst hcroot
    have hzero : (h.meltKept df).countP (fun e => e.node == h.rootNode) = 0 := by
      apply List.countP_eq_zero.mpr
      intro e he
      rcases mem_meltKept_cell he with ⟨j, r, _, hcell⟩
      simpa using meltCell_node_ne_root hcell
    rw [hzero]
    symm
    apply List.countP_eq_zero.mpr
    intro r _
    simp [inSubtree_root_false]
  · rw [meltKept_countP_node h hcroot df, countP_eq_sum_if]
    congr 1
    apply List.map_congr_left
    intro r _
    cases hlk : h.pathsDf.lookup r.node with
    | some p =>
      have hup := init_path_upPath hok hlk
      have hnd : p.Nodup := upPath_nodup hup
      simp only [Option.getD_some]
      by_cases hsub : inSubtree (parentOf rows) h.rootNode c (hfuel rows) r.node = true
      · rw [if_pos hsub]
        exact List.count_eq_one_of_mem hnd (inSubtree_mem_upPath hup hsub)
      · rw [if_neg hsub]
        apply List.count_eq_zero_of_not_mem
        intro hcmem
        exact hsub (upPath_mem_inSubtree hup hcmem hcroot)
    | none =>
      simp only [Option.getD_none, List.count_nil]
      rcases init_ok_inv hok with ⟨rootNode, ps, hr, hnodup, hps, hstruct⟩
      have hroot' : h.rootNode = rootNode := by rw [hstruct]
      have hpaths' : h.pathsDf = ps := by rw [hstruct]
      rw [hpaths'] at hlk
      have hlkif := getPathsAux_lookup hps r.node
      rw [hlk] at hlkif
      by_cases hcond : r.node ∈ gNodes rows ∧ r.node ≠ rootNode
      · exfalso
        rcases getPathsAux_ok_reachable hps r.node hcond.1 hcond.2 with ⟨p, hp⟩
        rw [if_pos hcond, hp] at hlkif
        exact Option.noConfusion hlkif
      · push_neg at hcond
        by_cases hmem : r.node ∈ gNodes rows
        · have hnroot : r.node = rootNode := hcond hmem
          rw [hroot', hnroot, inSubtree_at_root]
          simp
        · have hP : parentOf rows r.node = none := notin_gNodes_parentOf_none hmem
          have hnc : r.node ≠ c := by
            intro hrc
            rcases hchild with ⟨r0, hr0, hname, _⟩
            exact hmem (hrc ▸ hname ▸ name_mem_gNodes hr0)
          rw [inSubtree_false_of_no_parent hP hnc]
          simp

/-- Witness for C3 on the scenario: with the demo staff table, the group
count at the root's immediate child 1 equals the number of fact rows inside
1's subtree, namely 5. -/
theorem claim_C3_witness :
    groupCount (demoH.expand
        [⟨1, "456"⟩, ⟨12, "573"⟩, ⟨121, "574"⟩, ⟨121, "578"⟩, ⟨130, "666"⟩]) 1 =
      ([⟨1, "456"⟩, ⟨12, "573"⟩, ⟨121, "574"⟩, ⟨121, "578"⟩,
        ⟨130, "666"⟩] : List FactRow).countP
        (fun r => inSubtree (parentOf demoTable) demoH.rootNode 1
          (hfuel demoTable) r.node) ∧
    groupCount (demoH.expand
        [⟨1, "456"⟩, ⟨12, "573"⟩, ⟨121, "574"⟩, ⟨121, "578"⟩, ⟨130, "666"⟩]) 1 = 5 := by
  have hok : Hierarchy.init demoTable none (some 0) = Except.ok demoH := by rfl
  have hmain := claim_C3 demoTable none (some 0) demoH hok 1
    ⟨⟨1, 0, ""⟩, by decide, rfl, by decide⟩
    [⟨1, "456"⟩, ⟨12, "573"⟩, ⟨121, "574"⟩, ⟨121, "578"⟩, ⟨130, "666"⟩]
  exact ⟨hmain, by decide⟩

/-! ## Claim C8 -/

/-- Claim C8: the Aggregator is idempotent — running `add_to_def_df` again
with the same fact table, reducer and output column computes exactly the
same per-node aggregate table (the expansion reads only the root, the path
mapping and the typed base columns, none of which the merge changes), and
invoking it twice appends the same value column twice (pandas renames the
colliding labels with `_x`/`_y` suffixes but never alters the values). -/
theorem claim_C8 (h : Hierarchy) (df : List FactRow)
    (red : List String → String) (aggCol : String) :
    (h.addToDefDf df red aggCol).aggTable df red = h.aggTable df red ∧
    ((h.addToDefDf df red aggCol).addToDefDf df red aggCol).aggCols =
      h.aggCols ++
        [(aggCol, h.defDf.map
            (fun d => ((h.aggTable df red).lookup d.name).getD (""))),
         (aggCol, h.defDf.map
            (fun d => ((h.aggTable df red).lookup d.name).getD ("")))] := by
  constructor
  · rfl
  · rw [show ((h.addToDefDf df red aggCol).addToDefDf df red aggCol).aggCols =
        (h.aggCols ++ [(aggCol, h.defDf.map
          (fun d => ((h.aggTable df red).lookup d.name).getD ("")))]) ++
        [(aggCol, h.defDf.map
          (fun d => ((h.aggTable df red).lookup d.name).getD ("")))] from rfl,
      List.append_assoc]
    rfl

/-! ## Claim C9 -/

theorem lex3_total (a b : Nat × Nat × Nat) : lex3 a b = true ∨ lex3 b a = true := by
  rcases a with ⟨a1, a2, a3⟩
  rcases b with ⟨b1, b2, b3⟩
  simp [lex3]
  omega

theorem lex3_trans {a b c : Nat × Nat × Nat} (hab : lex3 a b = true)
    (hbc : lex3 b c = true) : lex3 a c = true := by
  rcases a with ⟨a1, a2, a3⟩
  rcases b with ⟨b1, b2, b3⟩
  rcases c with ⟨c1, c2, c3⟩
  simp [lex3] at hab hbc ⊢
  omega

instance : IsTotal WrapRow wLE :=
  ⟨fun a b => lex3_total (wKey a) (wKey b)⟩

instance : IsTrans WrapRow wLE :=
  ⟨fun _ _ _ hab hbc => lex3_trans hab hbc⟩

/-- Within one `h_ix` group the sort order is decided by `h_level`. -/
theorem wLE_level_le {a b : WrapRow} (hix : a.hIx = b.hIx) (hle : wLE a b) :
    a.hLevel ≤ b.hLevel := by
  unfold wLE wKey at hle
  rw [hix] at hle
  simp [lex3] at hle
  omega

/-- The hierarchy on the one-row table `{1: 0}` used for the C9
counterexample. -/
def wrapH : Hierarchy :=
  (Hierarchy.init [⟨1, 0, ""⟩] none (some 0)).toOption.getD
    { rootNode := 0, defDf := [], pathsDf := [], aggCols := [] }

/-- Counterexample for C9 as stated: wrapping a fact table with a row whose
node key (99) is absent from the tree does not produce a sorted table — the
left join leaves that row's `h_ix` missing, `fillna('')` turns it into the
empty string, and sorting the now int-and-str `h_ix` column raises
`TypeError`, so `wrap_in_def_df` produces no table at all. -/
theorem claim_C9_counterexample :
    Hierarchy.init [⟨1, 0, ""⟩] none (some 0) = Except.ok wrapH ∧
    isErr (wrapH.wrapInDefDf [⟨99, "x"⟩]) = true := by
  exact ⟨by rfl, by rfl⟩

/-- Claim C9, amended: for every fact table whose node references all occur
in the node table, `wrap_in_def_df` produces a single table that is a
permutation of (every `def_df` row at its stored level) ++ (every fact row
tagged with sentinel level 999 and widened with its node's columns by the
left join), sorted by `(h_ix, h_level)`; consequently within one `h_ix`
group a row with smaller level (a node's definition row) precedes a row
with level 999 (a fact row).  When some fact row references an unknown key
the sort raises instead (see the counterexample). -/
theorem claim_C9 (rows : List DefRow) (ixCol : Option (List Nat))
    (root? : Option Nat) (h : Hierarchy)
    (hok : Hierarchy.init rows ixCol root? = Except.ok h) (df : List FactRow)
    (hkn : ∀ r ∈ df, ∃ d ∈ h.defDf, d.name = r.node) :
    ∃ out, h.wrapInDefDf df = Except.ok out ∧
      out.Perm (h.wrapDefPart ++ h.wrapFactPart df) ∧
      List.Sorted wLE out ∧
      (∀ i j : Fin out.length, (out.get i).hIx = (out.get j).hIx →
        (out.get i).hLevel < (out.get j).hLevel → (i : Nat) < (j : Nat)) := by
  have hall : ∀ w ∈ h.wrapDefPart ++ h.wrapFactPart df, w.hIx.isSome = true := by
    intro w hw
    rcases List.mem_append.mp hw with hw' | hw'
    · unfold Hierarchy.wrapDefPart at hw'
      rcases List.mem_map.mp hw' with ⟨d, _, rfl⟩
      rfl
    · unfold Hierarchy.wrapFactPart at hw'
      rcases List.mem_map.mp hw' with ⟨r, hr, rfl⟩
      rcases hkn r hr with ⟨d, hd, hname⟩
      dsimp only
      cases hfx : h.defDf.find? (fun x => x.name == r.node) with
      | none =>
        exfalso
        rw [List.find?_eq_none] at hfx
        exact hfx d hd (by simp [hname])
      | some d0 => simp [hfx]
  have hguard : ((h.wrapDefPart ++ h.wrapFactPart df).any
      (fun w => w.hIx.isNone)) = false := by
    rw [List.any_eq_false]
    intro w hw
    simp [Option.isNone_iff_eq_none]
    intro hnone
    have := hall w hw
    rw [hnone] at this
    exact Bool.noConfusion this
  refine ⟨List.insertionSort wLE (h.wrapDefPart ++ h.wrapFactPart df), ?_, ?_, ?_, ?_⟩
  · unfold Hierarchy.wrapInDefDf
    simp [hguard]
  · exact List.perm_insertionSort wLE _
  · exact List.sorted_insertionSort wLE _
  · intro i j hix hlev
    by_contra hji
    have hle : (j : Nat) ≤ (i : Nat) := Nat.le_of_not_lt hji
    rcases Nat.eq_or_lt_of_le hle with heq | hlt
    · have : i = j := Fin.ext heq.symm
      rw [this] at hlev
      exact lt_irrefl _ hlev
    · have hsorted := List.sorted_insertionSort wLE
        (h.wrapDefPart ++ h.wrapFactPart df)
      have hlt' : j < i := Fin.lt_def.mpr hlt
      have hrel := hsorted.rel_get_of_lt hlt'
      exact absurd hlev (not_lt.mpr (wLE_level_le hix.symm hrel))

/-- Witness for C9 on the scenario with one fact row on node 121. -/
theorem claim_C9_witness :
    ∃ out, demoH.wrapInDefDf [⟨121, "574"⟩] = Except.ok out ∧
      out.Perm (demoH.wrapDefPart ++ demoH.wrapFactPart [⟨121, "574"⟩]) ∧
      List.Sorted wLE out ∧
      (∀ i j : Fin out.length, (out.get i).hIx = (out.get j).hIx →
        (out.get i).hLevel < (out.get j).hLevel → (i : Nat) < (j : Nat)) :=
  claim_C9 demoTable none (some 0) demoH (by rfl) [⟨121, "574"⟩] (by decide)

/-! ## StructureParser (`Hierarchy.from_structure`) -/

/-- One row of the table handed to `from_structure`: the `<name>` key column
and the structural path column (a delimiter-joined label string, e.g.
`"RvB|Sales & Marketing|Marketing"`), as a character list.  When the caller
passes several label columns the source first joins their non-empty values
with the delimiter into this single column. -/
structure SRow where
  key : String
  struc : List Char
deriving DecidableEq, Repr

/-- A row of the parent-augmented table `from_structure` builds: the key and
the resolved `parent_<name>` value (`none` models the `NaN` of an
unresolved parent). -/
structure PRow where
  key : String
  parentKey : Option String
deriving DecidableEq, Repr

/-- Python `str.rfind` for a single-character needle (the repository always
uses the one-character delimiter `'|'`): index of the last occurrence, or
`none` for Python's `-1`. -/
def rfindIdx (s : List Char) (d : Char) : Option Nat :=
  match s with
  | [] => none
  | c :: cs =>
    match rfindIdx cs d with
    | some j => some (j + 1)
    | none => if c == d then some 0 else none

/-- `from_structure.strip_from_right`: truncate the structural string at the
last delimiter occurrence; with no delimiter present the parent is the root
sentinel string `'root'`. -/
def stripFromRight (delim : Char) (s : List Char) : List Char :=
  match rfindIdx s delim with
  | some i => s.take i
  | none => "root".toList

/-- The `struc_to_name` lookup table: each row's structural string mapped to
its key, plus the synthetic root entry `{name: 'root', struc: 'root'}`
appended at the end. -/
def strucToName (rows : List SRow) : List (List Char × String) :=
  rows.map (fun x => (x.struc, x.key)) ++ [("root".toList, "root")]

/-- `DataFrame.replace({'root': root})`: every cell equal to the string
`'root'` becomes the caller's root value. -/
def replRoot (root : String) (k : String) : String :=
  if k = "root" then root else k

/-- The parent-resolution of a single input row: derive its parent
structural string with `strip_from_right`, left-merge it through
`struc_to_name` (all matches; no match leaves `NaN`), then apply the
`replace({'root': root})` to the kept columns. -/
def resolveRow (rows : List SRow) (delim : Char) (root : String) (r : SRow) :
    List PRow :=
  if ((strucToName rows).filter
      (fun e => e.1 == stripFromRight delim r.struc)).isEmpty then
    [{ key := replRoot root r.key, parentKey := none }]
  else
    ((strucToName rows).filter
        (fun e => e.1 == stripFromRight delim r.struc)).map
      (fun e => { key := replRoot root r.key, parentKey := some (replRoot root e.2) })

/-- The whole parent-resolution merge of `from_structure` (lines 88-102). -/
def resolveParents (rows : List SRow) (delim : Char) (root : String) :
    List PRow :=
  rows.flatMap (resolveRow rows delim root)

/-- `Hierarchy.from_structure` up to the hand-off to the constructor: after
the merge, line 104 evaluates `df.parent_dept` — the *hardcoded* column name
`parent_dept`, not `'parent_' + name` — so for any hierarchy name other than
`'dept'` the attribute access raises `AttributeError` before the unresolved
rows can be reported and dropped.  For name `'dept'` the unresolved rows are
printed and dropped and the remaining rows are handed to `Hierarchy(df,
name, root)` (the constructor embedded above as `Hierarchy.init`). -/
def fromStructure (rows : List SRow) (name : String) (delim : Char)
    (root : String) : Except String (List PRow) :=
  if name = "dept" then
    Except.ok ((resolveParents rows delim root).filter
      (fun p => p.parentKey.isSome))
  else
    Except.error ("AttributeError: DataFrame object has no attribute parent_dept")

/-! ## Claim C6 -/

theorem rfindIdx_of_notMem {d : Char} :
    ∀ {s : List Char}, d ∉ s → rfindIdx s d = none := by
  intro s
  induction s with
  | nil => intro _; rfl
  | cons c cs ih =>
    intro hd
    have hc : (c == d) = false := by
      simp only [beq_eq_false_iff_ne, ne_eq]
      intro hcd
      exact hd (hcd ▸ List.mem_cons_self _ _)
    simp only [rfindIdx, ih (fun hm => hd (List.mem_cons_of_mem _ hm)), hc]
    rfl

theorem rfindIdx_append_last {d : Char} {u : List Char} (hu : d ∉ u) :
    ∀ t : List Char, rfindIdx (t ++ d :: u) d = some t.length := by
  intro t
  induction t with
  | nil =>
    simp only [List.nil_append, rfindIdx, rfindIdx_of_notMem hu, beq_self_eq_true]
    rfl
  | cons c t' ih =>
    show (match rfindIdx (t' ++ d :: u) d with
          | some j => some (j + 1)
          | none => if c == d then some 0 else none) = some ((c :: t').length)
    rw [ih]
    rfl

theorem stripFromRight_append {delim : Char} {t u : List Char} (hu : delim ∉ u) :
    stripFromRight delim (t ++ delim :: u) = t := by
  unfold stripFromRight
  rw [rfindIdx_append_last hu t]
  exact List.take_left t (delim :: u)

theorem stripFromRight_no_delim {delim : Char} {s : List Char} (hs : delim ∉ s) :
    stripFromRight delim s = "root".toList := by
  unfold stripFromRight
  rw [rfindIdx_of_notMem hs]

/-- Claim C6: for every input row the derived parent structural string is
the structural string truncated at the last delimiter occurrence; a row
whose structural string contains exactly one matching row `"A|B"` for its
truncation resolves to that row's key; and a row with no delimiter resolves
to the designated root. -/
theorem claim_C6 (rows : List SRow) (delim : Char) (root : String) (r : SRow)
    (hr : r ∈ rows) (hkey : r.key ≠ "root")
    (hnoroot : ∀ q ∈ rows, q.struc ≠ "root".toList) :
    (∀ t u, r.struc = t ++ delim :: u → delim ∉ u →
      stripFromRight delim r.struc = t)
    ∧ (∀ t u q, r.struc = t ++ delim :: u → delim ∉ u →
        rows.filter (fun x => x.struc == t) = [q] → q.key ≠ "root" →
        resolveRow rows delim root r = [⟨r.key, some q.key⟩])
    ∧ (delim ∉ r.struc →
        resolveRow rows delim root r = [⟨r.key, some root⟩]) := by
  refine ⟨?_, ?_, ?_⟩
  · intro t u hstruc hu
    rw [hstruc]
    exact stripFromRight_append hu
  · intro t u q hstruc hu hq hqkey
    have hstrip : stripFromRight delim r.struc = t := by
      rw [hstruc]
      exact stripFromRight_append hu
    have hqmem : q ∈ rows ∧ (q.struc == t) = true := by
      have : q ∈ rows.filter (fun x => x.struc == t) := by
        rw [hq]
        exact List.mem_cons_self _ _
      exact List.mem_filter.mp this
    have hqt : q.struc = t := by
      have := hqmem.2
      simpa using this
    have htroot : (("root".toList : List Char) == t) = false := by
      rw [beq_eq_false_iff_ne]
      intro hcontra
      exact hnoroot q hqmem.1 (hqt.trans hcontra.symm)
    have hmapfilter : (rows.map (fun x => (x.struc, x.key))).filter
        (fun e => e.1 == t) = [(q.struc, q.key)] := by
      rw [List.filter_map]
      have hcomp : ((fun e : List Char × String => e.1 == t) ∘
          (fun x : SRow => (x.struc, x.key))) = (fun x : SRow => x.struc == t) := by
        funext x
        rfl
      rw [hcomp, hq]
      rfl
    have hfilter : (strucToName rows).filter
        (fun e => e.1 == stripFromRight delim r.struc) = [(q.struc, q.key)] := by
      rw [hstrip]
      unfold strucToName
      rw [List.filter_append, hmapfilter]
      have hsing : (([("root".toList, "root")] : List (List Char × String)).filter
          (fun e => e.1 == t)) = [] := by
        simp only [List.filter, htroot]
      rw [hsing, List.append_nil]
    unfold resolveRow
    rw [hfilter]
    simp [replRoot, hkey, hqkey, List.isEmpty]
  · intro hnod
    have hstrip : stripFromRight delim r.struc = "root".toList :=
      stripFromRight_no_delim hnod
    have hmapfilter : (rows.map (fun x => (x.struc, x.key))).filter
        (fun e => e.1 == "root".toList) = [] := by
      rw [List.filter_map]
      have hcomp : ((fun e : List Char × String => e.1 == "root".toList) ∘
          (fun x : SRow => (x.struc, x.key))) =
          (fun x : SRow => x.struc == "root".toList) := by
        funext x
        rfl
      rw [hcomp]
      have hnil : rows.filter (fun x => x.struc == "root".toList) = [] := by
        rw [List.filter_eq_nil_iff]
        intro q hqm
        simp only [beq_iff_eq]
        exact hnoroot q hqm
      rw [hnil]
      rfl
    have hfilter : (strucToName rows).filter
        (fun e => e.1 == stripFromRight delim r.struc) =
        [("root".toList, "root")] := by
      rw [hstrip]
      unfold strucToName
      rw [List.filter_append, hmapfilter]
      simp
    unfold resolveRow
    rw [hfilter]
    simp [replRoot, hkey, List.isEmpty]

/-- Witness for C6: in the three-row table `a: "A"`, `b: "A|B"`,
`c: "A|B|C"`, the parent of row `c` resolves to `b` (structural string
`"A|B"`), and row `a` (no delimiter) resolves to the designated root. -/
theorem claim_C6_witness :
    stripFromRight '|' ("A|B|C".toList) = "A|B".toList ∧
    resolveRow [⟨"a", "A".toList⟩, ⟨"b", "A|B".toList⟩, ⟨"c", "A|B|C".toList⟩]
      '|' "0" ⟨"c", "A|B|C".toList⟩ = [⟨"c", some "b"⟩] ∧
    resolveRow [⟨"a", "A".toList⟩, ⟨"b", "A|B".toList⟩, ⟨"c", "A|B|C".toList⟩]
      '|' "0" ⟨"a", "A".toList⟩ = [⟨"a", some "0"⟩] := by
  have hmainc := claim_C6
    [⟨"a", "A".toList⟩, ⟨"b", "A|B".toList⟩, ⟨"c", "A|B|C".toList⟩] '|' "0"
    ⟨"c", "A|B|C".toList⟩ (by decide) (by decide) (by decide)
  have hmaina := claim_C6
    [⟨"a", "A".toList⟩, ⟨"b", "A|B".toList⟩, ⟨"c", "A|B|C".toList⟩] '|' "0"
    ⟨"a", "A".toList⟩ (by decide) (by decide) (by decide)
  refine ⟨?_, ?_, ?_⟩
  · exact hmainc.1 ("A|B".toList) ("C".toList) (by decide) (by decide)
  · exact hmainc.2.1 ("A|B".toList) ("C".toList) ⟨"b", "A|B".toList⟩
      (by decide) (by decide) (by decide) (by decide)
  · exact hmaina.2.2 (by decide)

/-! ## Claim C7 -/

/-- Claim C7 is a code bug: the spec (and the rest of the function) intend
rows with an unresolvable parent to be reported and dropped for *every*
hierarchy name, but line 104 reads the hardcoded column `df.parent_dept`,
so for any name other than `'dept'` `from_structure` raises
`AttributeError` instead; with name `'dept'` the lenient drop works (the
unresolvable row `b: "X|Y"` is dropped, row `a` survives with the root as
parent). -/
theorem claim_C7_code_bug :
    fromStructure [⟨"a", "A".toList⟩, ⟨"b", "X|Y".toList⟩] "oe" '|' "0" =
      Except.error ("AttributeError: DataFrame object has no attribute parent_dept")
    ∧ fromStructure [⟨"a", "A".toList⟩, ⟨"b", "X|Y".toList⟩] "dept" '|' "0" =
      Except.ok [⟨"a", some "0"⟩] := by
  exact ⟨by rfl, by rfl⟩
